import Mathlib

/-
Verification of the real-time synchronization layer and the sortable/filterable
table engine of the aiCrypto frontend, as a shallow embedding in Lean 4.

Embedded source files:
- frontend/src/contexts/WebSocketContext.tsx (connection lifecycle, event bus, send)
- frontend/src/components (CoinTable: filter, sort comparator, sort toggle)
- frontend/src/hooks/useDashboard.ts and useCoins.ts (SWR caches and push handlers)
-/

namespace AiCrypto

/-- A JavaScript scalar value as it occurs in a table row or message payload.
JS numbers are modelled as integers (all values the claims exercise are
integral); null and undefined are kept distinct as in JS. -/
inductive Scalar where
  | null : Scalar
  | undef : Scalar
  | str  (s : String) : Scalar
  | bool (b : Bool) : Scalar
  | num  (n : Int) : Scalar
deriving DecidableEq, Repr

/-- A row (a plain JS object with scalar fields), e.g. a CoinData record. -/
abbrev Row : Type := List (String × Scalar)

/-- JS property access a[sortKey]: the first binding of the key, undefined when
the key is absent. -/
def getField (r : Row) (k : String) : Scalar :=
  ((r.find? (fun p => p.1 == k)).map (fun p => p.2)).getD Scalar.undef

/-- The check `av === null || av === undefined` from the CoinTable comparator. -/
def isNullish : Scalar → Bool
  | Scalar.null => true
  | Scalar.undef => true
  | _ => false

/-- Sort direction, "asc" or "desc" in the source. -/
inductive SortDir where
  | asc : SortDir
  | desc : SortDir
deriving DecidableEq, Repr

/-- Model of String.prototype.localeCompare: a negative, zero or positive
number consistent with the string ordering (locale-insensitive model). -/
def strCompare (a b : String) : Int :=
  match compare a b with
  | Ordering.lt => -1
  | Ordering.eq => 0
  | Ordering.gt => 1

/-- JS Number(b) on a boolean. -/
def boolNum (b : Bool) : Int := if b then 1 else 0

/-- JS numeric coercion used by the final `(av as number) - (bv as number)`
branch. Non-numeric strings coerce to NaN, modelled as none; the claims only
exercise homogeneous columns, where this branch sees actual numbers. -/
def toNumber : Scalar → Option Int
  | Scalar.num n => some n
  | Scalar.bool b => some (boolNum b)
  | _ => none

/-- The CoinTable sort comparator, translated clause by clause:
null/undefined first (returns 1 resp. -1 regardless of direction), then
string, boolean and numeric branches with the direction applied.
A NaN comparator result is treated as 0, as Array.prototype.sort does. -/
def compareVals (dir : SortDir) (av bv : Scalar) : Int :=
  if isNullish av then 1
  else if isNullish bv then -1
  else
    match av, bv with
    | Scalar.str s1, Scalar.str s2 =>
        if dir = SortDir.asc then strCompare s1 s2 else strCompare s2 s1
    | Scalar.bool b1, Scalar.bool b2 =>
        if dir = SortDir.asc then boolNum b1 - boolNum b2 else boolNum b2 - boolNum b1
    | _, _ =>
        match toNumber av, toNumber bv with
        | some x, some y => if dir = SortDir.asc then x - y else y - x
        | _, _ => 0

/-- The row comparator `(a, b) => ...` built over `a[sortKey]` and `b[sortKey]`. -/
def compareRows (key : String) (dir : SortDir) (a b : Row) : Int :=
  compareVals dir (getField a key) (getField b key)

/-- Split a list into two halves by alternating elements (used by the merge
sort that models Array.prototype.sort). -/
def splitHalves {α : Type} : List α → List α × List α
  | [] => ([], [])
  | a :: t =>
    let p := splitHalves t
    (a :: p.2, p.1)

/-- Fuelled merge of two lists under a JS-style comparator: take the left
element when the comparator is ≤ 0. The fuel is always at least the sum of
the lengths at every call site, so the fuel-exhausted clause is unreachable. -/
def mergeFuel {α : Type} (cmp : α → α → Int) : Nat → List α → List α → List α
  | 0, l1, l2 => l1 ++ l2
  | _ + 1, [], l2 => l2
  | _ + 1, l1, [] => l1
  | f + 1, a :: as, b :: bs =>
    if cmp a b ≤ 0 then a :: mergeFuel cmp f as (b :: bs)
    else b :: mergeFuel cmp f (a :: as) bs

/-- Merge with exactly enough fuel. -/
def mergeC {α : Type} (cmp : α → α → Int) (l1 l2 : List α) : List α :=
  mergeFuel cmp (l1.length + l2.length) l1 l2

/-- Fuelled merge sort. -/
def mergeSortFuel {α : Type} (cmp : α → α → Int) : Nat → List α → List α
  | 0, l => l
  | _ + 1, [] => []
  | _ + 1, [a] => [a]
  | f + 1, a :: b :: t =>
    let p := splitHalves (a :: b :: t)
    mergeC cmp (mergeSortFuel cmp f p.1) (mergeSortFuel cmp f p.2)

/-- Model of Array.prototype.sort with a user comparator: a comparison
(merge) sort consistent with the comparator. -/
def sortJS {α : Type} (cmp : α → α → Int) (l : List α) : List α :=
  mergeSortFuel cmp l.length l

/-- The property that once a list element satisfies p, all later elements do:
elements satisfying p form a suffix (they are "at the end"). -/
def nullsLast {α : Type} (p : α → Bool) : List α → Bool
  | [] => true
  | a :: t => if p a then t.all p else nullsLast p t

lemma nullsLast_cons_pos {α : Type} (p : α → Bool) (a : α) (t : List α) (h : p a = true) :
    nullsLast p (a :: t) = t.all p := by
  simp [nullsLast, h]

lemma nullsLast_cons_neg {α : Type} (p : α → Bool) (a : α) (t : List α) (h : p a = false) :
    nullsLast p (a :: t) = nullsLast p t := by
  simp [nullsLast, h]

lemma splitHalves_len {α : Type} : ∀ l : List α,
    (splitHalves l).1.length + (splitHalves l).2.length = l.length ∧
    (splitHalves l).2.length ≤ (splitHalves l).1.length ∧
    (splitHalves l).1.length ≤ (splitHalves l).2.length + 1 := by
  intro l
  induction l with
  | nil => simp [splitHalves]
  | cons a t ih =>
    obtain ⟨h1, h2, h3⟩ := ih
    simp only [splitHalves, List.length_cons]
    omega

lemma all_mergeFuel {α : Type} (p : α → Bool) (cmp : α → α → Int) :
    ∀ (f : Nat) (l1 l2 : List α), l1.all p = true → l2.all p = true →
      (mergeFuel cmp f l1 l2).all p = true := by
  intro f
  induction f with
  | zero =>
    intro l1 l2 h1 h2
    simp only [mergeFuel, List.all_append]
    simp [h1, h2]
  | succ f ih =>
    intro l1 l2 h1 h2
    match l1, l2 with
    | [], l2 => simpa [mergeFuel] using h2
    | a :: as, [] => simpa [mergeFuel] using h1
    | a :: as, b :: bs =>
      simp only [List.all_cons, Bool.and_eq_true] at h1 h2
      simp only [mergeFuel]
      split
      · simp only [List.all_cons, Bool.and_eq_true]
        exact ⟨h1.1, ih as (b :: bs) h1.2 (by simp [List.all_cons, h2.1, h2.2])⟩
      · simp only [List.all_cons, Bool.and_eq_true]
        exact ⟨h2.1, ih (a :: as) bs (by simp [List.all_cons, h1.1, h1.2]) h2.2⟩

lemma nullsLast_mergeFuel {α : Type} (p : α → Bool) (cmp : α → α → Int)
    (hc1 : ∀ a b, p a = true → ¬ cmp a b ≤ 0)
    (hc2 : ∀ a b, p a = false → p b = true → cmp a b ≤ 0) :
    ∀ (f : Nat) (l1 l2 : List α), l1.length + l2.length ≤ f →
      nullsLast p l1 = true → nullsLast p l2 = true →
      nullsLast p (mergeFuel cmp f l1 l2) = true := by
  intro f
  induction f with
  | zero =>
    intro l1 l2 hlen h1 h2
    match l1, l2 with
    | [], [] => simp [mergeFuel, nullsLast]
    | a :: as, l2 => simp at hlen
    | [], b :: bs => simp at hlen
  | succ f ih =>
    intro l1 l2 hlen h1 h2
    match l1, l2 with
    | [], l2 => simpa [mergeFuel] using h2
    | a :: as, [] => simpa [mergeFuel] using h1
    | a :: as, b :: bs =>
      simp only [List.length_cons] at hlen
      simp only [mergeFuel]
      by_cases hpa : p a = true
      · have hgt := hc1 a b hpa
        rw [if_neg hgt]
        have hall1 : (a :: as).all p = true := by
          rw [nullsLast_cons_pos p a as hpa] at h1
          simp [List.all_cons, hpa, h1]
        by_cases hpb : p b = true
        · rw [nullsLast_cons_pos p b _ hpb]
          rw [nullsLast_cons_pos p b bs hpb] at h2
          exact all_mergeFuel p cmp f (a :: as) bs hall1 h2
        · have hpb' : p b = false := by simpa using hpb
          rw [nullsLast_cons_neg p b _ hpb']
          rw [nullsLast_cons_neg p b bs hpb'] at h2
          exact ih (a :: as) bs (by simp only [List.length_cons]; omega) h1 h2
      · have hpa' : p a = false := by simpa using hpa
        rw [nullsLast_cons_neg p a as hpa'] at h1
        by_cases hc : cmp a b ≤ 0
        · rw [if_pos hc, nullsLast_cons_neg p a _ hpa']
          exact ih as (b :: bs) (by simp only [List.length_cons]; omega) h1 h2
        · rw [if_neg hc]
          have hpb' : p b = false := by
            by_contra hb
            exact hc (hc2 a b hpa' (by simpa using hb))
          rw [nullsLast_cons_neg p b _ hpb']
          rw [nullsLast_cons_neg p b bs hpb'] at h2
          exact ih (a :: as) bs (by simp only [List.length_cons]; omega)
            (by rw [nullsLast_cons_neg p a as hpa']; exact h1) h2

lemma nullsLast_mergeSortFuel {α : Type} (p : α → Bool) (cmp : α → α → Int)
    (hc1 : ∀ a b, p a = true → ¬ cmp a b ≤ 0)
    (hc2 : ∀ a b, p a = false → p b = true → cmp a b ≤ 0) :
    ∀ (f : Nat) (l : List α), l.length ≤ f →
      nullsLast p (mergeSortFuel cmp f l) = true := by
  intro f
  induction f with
  | zero =>
    intro l hlen
    have hnil : l = [] := List.eq_nil_of_length_eq_zero (Nat.le_zero.mp hlen)
    subst hnil
    simp [mergeSortFuel, nullsLast]
  | succ f ih =>
    intro l hlen
    match l with
    | [] => simp [mergeSortFuel, nullsLast]
    | [a] =>
      simp only [mergeSortFuel, nullsLast]
      split <;> simp
    | a :: b :: t =>
      obtain ⟨hsum, hle, hle1⟩ := splitHalves_len (a :: b :: t)
      simp only [List.length_cons] at hlen hsum
      have h1f : (splitHalves (a :: b :: t)).1.length ≤ f := by omega
      have h2f : (splitHalves (a :: b :: t)).2.length ≤ f := by omega
      simp only [mergeSortFuel, mergeC]
      exact nullsLast_mergeFuel p cmp hc1 hc2 _ _ _ (le_refl _)
        (ih _ h1f) (ih _ h2f)

/-- A one-field example row used by the concrete sorting scenarios. -/
def exRow (v : Scalar) : Row := [("x", v)]

/-- C4: for every row list, sort column and direction, the rows whose value in
the sort column is null or absent are placed at the end of the sorted
sequence; in particular sorting the numeric column values 3, null, 1, null, 2
ascending yields 1, 2, 3, null, null and descending yields 3, 2, 1, null,
null. -/
theorem c4_nulls_sort_to_end :
    (∀ (rows : List Row) (key : String) (dir : SortDir),
      nullsLast (fun r => isNullish (getField r key))
        (sortJS (compareRows key dir) rows) = true) ∧
    sortJS (compareRows "x" SortDir.asc)
        [exRow (Scalar.num 3), exRow Scalar.null, exRow (Scalar.num 1),
         exRow Scalar.null, exRow (Scalar.num 2)]
      = [exRow (Scalar.num 1), exRow (Scalar.num 2), exRow (Scalar.num 3),
         exRow Scalar.null, exRow Scalar.null] ∧
    sortJS (compareRows "x" SortDir.desc)
        [exRow (Scalar.num 3), exRow Scalar.null, exRow (Scalar.num 1),
         exRow Scalar.null, exRow (Scalar.num 2)]
      = [exRow (Scalar.num 3), exRow (Scalar.num 2), exRow (Scalar.num 1),
         exRow Scalar.null, exRow Scalar.null] := by
  refine ⟨?_, by decide, by decide⟩
  intro rows key dir
  apply nullsLast_mergeSortFuel _ _ ?_ ?_ _ _ (le_refl _)
  · intro a b hpa
    simp only [compareRows, compareVals, hpa, if_pos]
    decide
  · intro a b hpa hpb
    simp only [compareRows, compareVals, hpa, hpb]
    simp

/-- Substring scan: does the needle q occur as a contiguous run inside the
haystack (model of String.prototype.includes, structurally on the haystack). -/
def containsSubAux (q : List Char) : List Char → Bool
  | [] => q.isEmpty
  | c :: t => q.isPrefixOf (c :: t) || containsSubAux q t

/-- JS s.includes(q) on strings. -/
def jsIncludes (s q : String) : Bool := containsSubAux q.toList s.toList

/-- ASCII lower-casing of one character (the coin symbols and search strings
the claims exercise are ASCII). -/
def asciiLower (c : Char) : Char :=
  if 'A' ≤ c ∧ c ≤ 'Z' then Char.ofNat (c.toNat + 32) else c

/-- Model of String.prototype.toLowerCase. -/
def toLowerCase (s : String) : String := String.mk (s.data.map asciiLower)

/-- The primary filter field c.coin; CoinData.coin is typed string, so
non-string values cannot occur on real rows. -/
def coinField (c : Row) : String :=
  match getField c "coin" with
  | Scalar.str s => s
  | _ => ""

/-- The CoinTable filter: lower-case the search string once, keep rows whose
lower-cased coin field contains it. -/
def filterCoins (search : String) (coins : List Row) : List Row :=
  let q := toLowerCase search
  coins.filter (fun c => jsIncludes (toLowerCase (coinField c)) q)

/-- The filtered-then-sorted projection computed by the CoinTable useMemo. -/
def filteredSorted (coins : List Row) (search : String) (key : String)
    (dir : SortDir) : List Row :=
  sortJS (compareRows key dir) (filterCoins search coins)

lemma containsSubAux_nil_left : ∀ s : List Char, containsSubAux [] s = true := by
  intro s
  cases s <;> simp [containsSubAux, List.isPrefixOf, List.isEmpty]

lemma jsIncludes_empty_needle (s : String) : jsIncludes s "" = true :=
  containsSubAux_nil_left s.toList

/-- C6: the filter keeps exactly the rows whose primary field, lower-cased,
contains the lower-cased filter string as a substring; the empty string keeps
all rows; filtering coin fields BTC, ETH, SOL with predicate et yields
exactly ETH. -/
theorem c6_filter_substring (q : String) (rows : List Row) :
    (∀ r : Row, r ∈ filterCoins q rows ↔
      r ∈ rows ∧ jsIncludes (toLowerCase (coinField r)) (toLowerCase q) = true) ∧
    filterCoins "" rows = rows ∧
    filterCoins "et"
        [[("coin", Scalar.str "BTC")], [("coin", Scalar.str "ETH")],
         [("coin", Scalar.str "SOL")]]
      = [[("coin", Scalar.str "ETH")]] := by
  refine ⟨?_, ?_, by decide⟩
  · intro r
    simp [filterCoins, List.mem_filter]
  · have h0 : toLowerCase "" = "" := by decide
    simp only [filterCoins, h0]
    exact List.filter_eq_self.mpr (fun a _ => jsIncludes_empty_needle _)

/-- The CoinTable sort UI state: active sort column and direction. -/
structure SortState where
  key : String
  dir : SortDir
deriving DecidableEq, Repr

/-- The direction flip applied when the active column is clicked again. -/
def flipDir : SortDir → SortDir
  | SortDir.asc => SortDir.desc
  | SortDir.desc => SortDir.asc

/-- handleSort from the CoinTable: clicking the active column flips the
direction and keeps the column; clicking another column activates it with
ascending direction. -/
def handleSort (s : SortState) (k : String) : SortState :=
  if s.key = k then ⟨s.key, flipDir s.dir⟩ else ⟨k, SortDir.asc⟩

/-- C7: toggling the currently active column flips direction while keeping
the column active, and toggling it twice restores the exact sort state, hence
the same table order; toggling a different column activates it with ascending
direction. -/
theorem c7_sort_toggle (s : SortState) (k : String) :
    (s.key = k →
      handleSort (handleSort s k) k = s ∧
      (handleSort s k).key = s.key ∧
      ∀ (rows : List Row) (q : String),
        filteredSorted rows q (handleSort (handleSort s k) k).key
            (handleSort (handleSort s k) k).dir
          = filteredSorted rows q s.key s.dir) ∧
    (s.key ≠ k → handleSort s k = ⟨k, SortDir.asc⟩) := by
  constructor
  · intro hk
    obtain ⟨skey, sdir⟩ := s
    simp only at hk
    subst hk
    have h2 : handleSort (handleSort ⟨skey, sdir⟩ skey) skey = ⟨skey, sdir⟩ := by
      cases sdir <;> simp [handleSort, flipDir]
    exact ⟨h2, by simp [handleSort], fun rows q => by rw [h2]⟩
  · intro hk
    simp [handleSort, hk]

/-- Witness for C7 at the concrete columns coin and mark_price. -/
theorem c7_sort_toggle_witness :
    handleSort (handleSort ⟨"coin", SortDir.asc⟩ "coin") "coin"
        = ⟨"coin", SortDir.asc⟩ ∧
    handleSort ⟨"coin", SortDir.asc⟩ "mark_price"
        = ⟨"mark_price", SortDir.asc⟩ :=
  ⟨((c7_sort_toggle ⟨"coin", SortDir.asc⟩ "coin").1 rfl).1,
   (c7_sort_toggle ⟨"coin", SortDir.asc⟩ "mark_price").2 (by decide)⟩

/-- JS object lookup o[k]: the first binding wins (a well-formed JS object
has no duplicate keys). -/
def getKey : List (String × Scalar) → String → Option Scalar
  | [], _ => none
  | p :: t, k => if p.1 == k then some p.2 else getKey t k

/-- One step of the JS object-spread construction: replace the value of an
existing key in place, otherwise append the binding at the end. -/
def setKey (o : List (String × Scalar)) (k : String) (v : Scalar) :
    List (String × Scalar) :=
  if o.any (fun p => p.1 == k) then
    o.map (fun p => if p.1 == k then (k, v) else p)
  else o ++ [(k, v)]

/-- The outbound envelope built by send: the object literal with the type
field first and the payload fields spread after it, so a payload type field
overwrites the type argument. -/
def mkEnvelope (t : String) (data : List (String × Scalar)) :
    List (String × Scalar) :=
  data.foldl (fun acc p => setKey acc p.1 p.2) [("type", Scalar.str t)]

/-- WebSocket readyState constants. -/
inductive ReadyState where
  | CONNECTING : ReadyState
  | OPEN : ReadyState
  | CLOSING : ReadyState
  | CLOSED : ReadyState
deriving DecidableEq, Repr

/-- The transport object as send observes it. -/
structure WSClient where
  readyState : ReadyState
deriving DecidableEq, Repr

/-- send(type, data) from WebSocketContext: transmit the flattened envelope
only when the current transport exists and its readyState is OPEN, otherwise
do nothing. The returned value is the transmitted frame, if any. -/
def send (ws : Option WSClient) (t : String) (data : List (String × Scalar)) :
    Option (List (String × Scalar)) :=
  match ws with
  | some w =>
    if w.readyState = ReadyState.OPEN then some (mkEnvelope t data) else none
  | none => none

/-- The complete observable effect of a send call: the list of frames written
to the socket so far. There is no queue and no error channel in the source. -/
structure SendEffects where
  transmitted : List (List (String × Scalar))
deriving DecidableEq

/-- A send call applied to the effect state: append the frame when one is
transmitted, otherwise leave every part of the state untouched. -/
def sendEff (ws : Option WSClient) (eff : SendEffects) (t : String)
    (data : List (String × Scalar)) : SendEffects :=
  match send ws t data with
  | some frame => ⟨eff.transmitted ++ [frame]⟩
  | none => eff

lemma any_key_eq_false_of_not_mem (o : List (String × Scalar)) (k : String)
    (h : k ∉ o.map Prod.fst) : o.any (fun p => p.1 == k) = false := by
  induction o with
  | nil => rfl
  | cons p t ih =>
    simp only [List.map_cons, List.mem_cons, not_or] at h
    simp only [List.any_cons, Bool.or_eq_false_iff]
    exact ⟨by simp [beq_iff_eq]; exact fun he => h.1 he.symm, ih h.2⟩

lemma setKey_append_of_not_mem (o : List (String × Scalar)) (k : String)
    (v : Scalar) (h : k ∉ o.map Prod.fst) : setKey o k v = o ++ [(k, v)] := by
  unfold setKey
  rw [any_key_eq_false_of_not_mem o k h]
  simp

lemma foldl_setKey_append : ∀ (d acc : List (String × Scalar)),
    (∀ k ∈ d.map Prod.fst, k ∉ acc.map Prod.fst) → (d.map Prod.fst).Nodup →
    d.foldl (fun a p => setKey a p.1 p.2) acc = acc ++ d := by
  intro d
  induction d with
  | nil => intro acc _ _; simp
  | cons p rest ih =>
    intro acc hdisj hnd
    simp only [List.foldl_cons]
    have hnotin : p.1 ∉ acc.map Prod.fst := hdisj p.1 (by simp)
    rw [setKey_append_of_not_mem acc p.1 p.2 hnotin]
    simp only [List.map_cons, List.nodup_cons] at hnd
    rw [ih (acc ++ [(p.1, p.2)]) ?_ hnd.2]
    · simp
    · intro k hk
      simp only [List.map_append, List.mem_append, List.map_cons,
        List.map_nil, List.mem_singleton, not_or]
      refine ⟨hdisj k (by rw [List.map_cons]; exact List.mem_cons_of_mem _ hk), ?_⟩
      intro he
      exact hnd.1 (he ▸ hk)

lemma getKey_map_replace (o : List (String × Scalar)) (k k' : String)
    (v : Scalar) (h : (k == k') = false) :
    getKey (o.map (fun p => if p.1 == k then (k, v) else p)) k' = getKey o k' := by
  induction o with
  | nil => rfl
  | cons q t ih =>
    simp only [List.map_cons]
    by_cases hq : (q.1 == k) = true
    · have hqe : q.1 = k := by simpa using hq
      rw [if_pos hq]
      simp only [getKey, hqe, h, Bool.false_eq_true, if_false]
      exact ih
    · have hq' : (q.1 == k) = false := by simpa using hq
      simp only [hq', Bool.false_eq_true, if_false, getKey]
      by_cases hq2 : (q.1 == k') = true
      · rw [if_pos hq2, if_pos hq2]
      · have hq2' : (q.1 == k') = false := by simpa using hq2
        simp only [hq2', Bool.false_eq_true, if_false]
        exact ih

lemma getKey_append_singleton (o : List (String × Scalar)) (k k' : String)
    (v : Scalar) (h : (k == k') = false) :
    getKey (o ++ [(k, v)]) k' = getKey o k' := by
  induction o with
  | nil => simp [getKey, h]
  | cons q t ih =>
    by_cases hq : (q.1 == k') = true
    · simp [getKey, hq]
    · have hq' : (q.1 == k') = false := by simpa using hq
      simp [getKey, hq', ih]

lemma getKey_setKey_ne (o : List (String × Scalar)) (k k' : String)
    (v : Scalar) (h : (k == k') = false) :
    getKey (setKey o k v) k' = getKey o k' := by
  unfold setKey
  by_cases ha : o.any (fun p => p.1 == k) = true
  · rw [if_pos ha]
    exact getKey_map_replace o k k' v h
  · rw [if_neg ha]
    exact getKey_append_singleton o k k' v h

lemma getKey_append_self (o : List (String × Scalar)) (k : String) (v : Scalar)
    (h : o.any (fun p => p.1 == k) = false) :
    getKey (o ++ [(k, v)]) k = some v := by
  induction o with
  | nil => simp [getKey]
  | cons q t ih =>
    simp only [List.any_cons, Bool.or_eq_false_iff] at h
    simp only [List.cons_append, getKey, h.1, Bool.false_eq_true, if_false]
    exact ih h.2

lemma getKey_map_self (o : List (String × Scalar)) (k : String) (v : Scalar)
    (h : o.any (fun p => p.1 == k) = true) :
    getKey (o.map (fun p => if p.1 == k then (k, v) else p)) k = some v := by
  induction o with
  | nil => simp at h
  | cons q t ih =>
    simp only [List.any_cons, Bool.or_eq_true] at h
    by_cases hq : (q.1 == k) = true
    · simp [getKey, hq]
    · have hq' : (q.1 == k) = false := by simpa using hq
      have ht : t.any (fun p => p.1 == k) = true := by
        rcases h with h | h
        · rw [hq'] at h; exact absurd h (by simp)
        · exact h
      simp only [List.map_cons, hq', Bool.false_eq_true, if_false, getKey]
      exact ih ht

lemma getKey_setKey_self (o : List (String × Scalar)) (k : String) (v : Scalar) :
    getKey (setKey o k v) k = some v := by
  unfold setKey
  by_cases ha : o.any (fun p => p.1 == k) = true
  · rw [if_pos ha]
    exact getKey_map_self o k v ha
  · rw [if_neg ha]
    refine getKey_append_self o k v ?_
    simp only [Bool.not_eq_true] at ha
    exact ha

lemma getKey_foldl_preserve : ∀ (d acc : List (String × Scalar)),
    "type" ∉ d.map Prod.fst →
    getKey (d.foldl (fun a p => setKey a p.1 p.2) acc) "type" = getKey acc "type" := by
  intro d
  induction d with
  | nil => intro acc _; rfl
  | cons p rest ih =>
    intro acc h
    simp only [List.map_cons, List.mem_cons, not_or] at h
    simp only [List.foldl_cons]
    rw [ih (setKey acc p.1 p.2) h.2]
    apply getKey_setKey_ne
    simp only [beq_eq_false_iff_ne, ne_eq]
    exact fun he => h.1 he.symm

lemma getKey_foldl_setKey_type : ∀ (d acc : List (String × Scalar)) (v : Scalar),
    (d.map Prod.fst).Nodup → getKey d "type" = some v →
    getKey (d.foldl (fun a p => setKey a p.1 p.2) acc) "type" = some v := by
  intro d
  induction d with
  | nil => intro acc v _ hv; exact absurd hv (by simp [getKey])
  | cons p rest ih =>
    intro acc v hnd hv
    simp only [List.map_cons, List.nodup_cons] at hnd
    simp only [List.foldl_cons]
    by_cases hp : (p.1 == "type") = true
    · have hpe : p.1 = "type" := by simpa using hp
      have hrest : "type" ∉ rest.map Prod.fst := hpe ▸ hnd.1
      rw [getKey_foldl_preserve rest (setKey acc p.1 p.2) hrest]
      have hv' : p.2 = v := by simpa [getKey, hp] using hv
      rw [← hv', hpe]
      exact getKey_setKey_self acc "type" p.2
    · have hp' : (p.1 == "type") = false := by simpa using hp
      have hv' : getKey rest "type" = some v := by
        simpa only [getKey, hp', Bool.false_eq_true, if_false] using hv
      exact ih (setKey acc p.1 p.2) v hnd.2 hv'

/-- C8: send transmits only while the transport readyState is OPEN, and the
transmitted envelope is the type field followed by the payload fields spread
at top level (not nested under data); a call while not Open is silently
dropped, with no queuing and no state change. -/
theorem c8_send_gated_flattened (w : WSClient) (eff : SendEffects) (t : String)
    (d : List (String × Scalar)) :
    (w.readyState = ReadyState.OPEN → send (some w) t d = some (mkEnvelope t d)) ∧
    (w.readyState ≠ ReadyState.OPEN →
      send (some w) t d = none ∧ sendEff (some w) eff t d = eff) ∧
    send none t d = none ∧
    ("type" ∉ d.map Prod.fst → (d.map Prod.fst).Nodup →
      mkEnvelope t d = ("type", Scalar.str t) :: d) := by
  refine ⟨fun h => by simp [send, h], fun h => ?_, rfl, fun h1 h2 => ?_⟩
  · refine ⟨by simp [send, h], ?_⟩
    simp [sendEff, send, h]
  · have hdisj : ∀ k ∈ d.map Prod.fst,
        k ∉ ([("type", Scalar.str t)] : List (String × Scalar)).map Prod.fst := by
      intro k hk
      simp only [List.map_cons, List.map_nil, List.mem_singleton]
      exact fun he => h1 (he ▸ hk)
    unfold mkEnvelope
    rw [foldl_setKey_append d [("type", Scalar.str t)] hdisj h2]
    simp

/-- Witness for C8: a concrete dropped call on a closed transport and a
concrete transmitted flattened envelope on an open one. -/
theorem c8_send_gated_flattened_witness :
    send (some ⟨ReadyState.CLOSED⟩) "ping" [("a", Scalar.num 1)] = none ∧
    send (some ⟨ReadyState.OPEN⟩) "ping" [("a", Scalar.num 1)]
        = some [("type", Scalar.str "ping"), ("a", Scalar.num 1)] := by
  constructor
  · exact ((c8_send_gated_flattened ⟨ReadyState.CLOSED⟩ ⟨[]⟩ "ping"
      [("a", Scalar.num 1)]).2.1 (by decide)).1
  · have h1 := (c8_send_gated_flattened ⟨ReadyState.OPEN⟩ ⟨[]⟩ "ping"
      [("a", Scalar.num 1)]).1 rfl
    have h2 := (c8_send_gated_flattened ⟨ReadyState.OPEN⟩ ⟨[]⟩ "ping"
      [("a", Scalar.num 1)]).2.2.2 (by decide) (by decide)
    rw [h1, h2]

/-- C10: because the payload is spread after the type field, a payload that
itself contains a type key overrides the type argument in the transmitted
envelope. -/
theorem c10_payload_type_overrides (t : String) (d : List (String × Scalar))
    (v : Scalar) (hnd : (d.map Prod.fst).Nodup) (hv : getKey d "type" = some v) :
    getKey (mkEnvelope t d) "type" = some v :=
  getKey_foldl_setKey_type d [("type", Scalar.str t)] v hnd hv

/-- Witness for C10: send with type a and payload containing type b transmits
type b. -/
theorem c10_payload_type_overrides_witness :
    getKey (mkEnvelope "a" [("type", Scalar.str "b")]) "type"
      = some (Scalar.str "b") :=
  c10_payload_type_overrides "a" [("type", Scalar.str "b")] (Scalar.str "b")
    (by decide) (by decide)

/-- A JS value as delivered in a push payload: a scalar or a flat object. -/
inductive JSVal where
  | scalar (s : Scalar) : JSVal
  | object (fields : List (String × Scalar)) : JSVal
deriving DecidableEq, Repr

/-- JS truthiness on the modelled values (the if (payload?.dashboard) check). -/
def truthy : JSVal → Bool
  | JSVal.scalar Scalar.null => false
  | JSVal.scalar Scalar.undef => false
  | JSVal.scalar (Scalar.bool b) => b
  | JSVal.scalar (Scalar.num n) => n != 0
  | JSVal.scalar (Scalar.str s) => s != ""
  | JSVal.object _ => true

/-- Lookup in a payload object whose fields are JS values. -/
def getKeyJ : List (String × JSVal) → String → Option JSVal
  | [], _ => none
  | p :: t, k => if p.1 == k then some p.2 else getKeyJ t k

/-- The SWR cache state for one resource: the cached value and the number of
revalidation pulls triggered so far. -/
structure SwrState where
  data : Option JSVal
  revalidations : Nat
deriving DecidableEq, Repr

/-- mutate(value, options): store the value; trigger a revalidation pull only
when the revalidate option is set. -/
def mutateSWR (s : SwrState) (v : JSVal) (revalidate : Bool) : SwrState :=
  ⟨some v, s.revalidations + (if revalidate then 1 else 0)⟩

/-- The initial_state subscription handler of useDashboard: when the payload
has a truthy dashboard field, mutate the cache with it, revalidate false. -/
def onInitialState (payload : List (String × JSVal)) (s : SwrState) : SwrState :=
  match getKeyJ payload "dashboard" with
  | some v => if truthy v then mutateSWR s v false else s
  | none => s

/-- The dashboard_update handler of useDashboard: mutate the cache with the
payload itself, revalidate false. -/
def onDashboardUpdate (d : JSVal) (s : SwrState) : SwrState := mutateSWR s d false

/-- C5: an initial_state payload carrying a dashboard object seeds the
dashboard cache with that object without triggering a revalidation pull, a
dashboard_update replaces the cache value wholesale, and the concrete
scenario equity 1000 then equity 900 leaves the cache at equity 900. -/
theorem c5_initial_state_then_update (payload : List (String × JSVal))
    (o : List (String × Scalar)) (s : SwrState)
    (h : getKeyJ payload "dashboard" = some (JSVal.object o)) :
    onInitialState payload s = ⟨some (JSVal.object o), s.revalidations⟩ ∧
    (∀ (d : JSVal) (s' : SwrState),
      onDashboardUpdate d s' = ⟨some d, s'.revalidations⟩) ∧
    (onDashboardUpdate (JSVal.object [("equity", Scalar.num 900)])
        (onInitialState [("dashboard", JSVal.object [("equity", Scalar.num 1000)])] s)).data
      = some (JSVal.object [("equity", Scalar.num 900)]) := by
  refine ⟨?_, fun d s' => rfl, rfl⟩
  simp [onInitialState, h, truthy, mutateSWR]

/-- Witness for C5 at the concrete initial_state payload and an empty cache. -/
theorem c5_initial_state_then_update_witness :
    onInitialState [("dashboard", JSVal.object [("equity", Scalar.num 1000)])]
        ⟨none, 0⟩
      = ⟨some (JSVal.object [("equity", Scalar.num 1000)]), 0⟩ :=
  (c5_initial_state_then_update
    [("dashboard", JSVal.object [("equity", Scalar.num 1000)])]
    [("equity", Scalar.num 1000)] ⟨none, 0⟩ (by decide)).1

/-- The two ResourceCache instances of the dashboard screen. -/
inductive CacheId where
  | dashboard : CacheId
  | coins : CacheId
deriving DecidableEq, Repr

/-- The SWR refreshInterval option of each cache in milliseconds, as a
function of the connected flag: useDashboard passes connected ? 0 : 30000,
useCoins passes the constant 60000. Interval 0 disables the periodic pull. -/
def refreshIntervalMs : CacheId → Bool → Nat
  | CacheId.dashboard, connected => if connected then 0 else 30000
  | CacheId.coins, _ => 60000

/-- Whether the recurring periodic pull of a cache is active. -/
def periodicPullActive (c : CacheId) (connected : Bool) : Bool :=
  refreshIntervalMs c connected != 0

/-- Counterexample to C3: the coin-list cache keeps a 60000 ms pull interval
even while the connection is Open, so its periodic pull is not suppressed
while Open. -/
theorem c3_coins_pull_active_while_open :
    periodicPullActive CacheId.coins true = true ∧
    refreshIntervalMs CacheId.coins true = 60000 := by decide

/-- C3 amended: only the dashboard cache restricts its periodic pull to the
Disconnected state (30000 ms, suppressed while Open); the coin-list cache
pulls every 60000 ms regardless of connection state. -/
theorem c3_amended_dashboard_only :
    ∀ connected : Bool,
      periodicPullActive CacheId.dashboard connected = !connected ∧
      periodicPullActive CacheId.coins connected = true := by decide

/-- The fixed reconnection delay of the provider. -/
def reconnectDelayMs : Nat := 3000

/-- The WebSocketProvider lifecycle state: whether a transport object is live
(its close event not yet queued), whether a close event is queued for
delivery, the pending reconnect timer, whether the effect cleanup ran, and
how many connect() calls were issued. -/
structure ProviderState where
  wsAlive : Bool
  closeQueued : Bool
  reconnectTimer : Option Nat
  tornDown : Bool
  connectCalls : Nat
deriving DecidableEq, Repr

/-- The state before the provider mounts. -/
def initialProviderState : ProviderState := ⟨false, false, none, false, 0⟩

/-- connect(): create a transport with onopen, onmessage, onclose and onerror
attached, and store it in wsRef. -/
def runConnect (s : ProviderState) : ProviderState :=
  { s with wsAlive := true, connectCalls := s.connectCalls + 1 }

/-- The asynchronous events of the provider lifecycle. -/
inductive PEvent where
  | mount : PEvent
  | closeEvt : PEvent
  | timerFire : PEvent
  | teardown : PEvent
  | errorEvt : PEvent
deriving DecidableEq, Repr

/-- One event-loop step. mount runs the effect body (connect). closeEvt
delivers a transport close event: onclose is attached for the whole life of
the transport, including after teardown, and always schedules
setTimeout(connect, 3000). timerFire runs a pending reconnect timer, calling
connect unconditionally. teardown is the effect cleanup: clearTimeout on the
pending timer and then ws.close(), which queues a close event; nothing
detaches onclose. errorEvt is onerror, which only calls ws.close(). -/
def pstep (s : ProviderState) : PEvent → ProviderState
  | PEvent.mount =>
      if s.connectCalls = 0 && !s.tornDown then runConnect s else s
  | PEvent.closeEvt =>
      if s.wsAlive || s.closeQueued then
        { s with wsAlive := false, closeQueued := false,
                 reconnectTimer := some reconnectDelayMs }
      else s
  | PEvent.timerFire =>
      match s.reconnectTimer with
      | some _ => runConnect { s with reconnectTimer := none }
      | none => s
  | PEvent.teardown =>
      if s.tornDown then s
      else { s with tornDown := true, reconnectTimer := none,
                    closeQueued := s.wsAlive, wsAlive := false }
  | PEvent.errorEvt =>
      if s.wsAlive then { s with wsAlive := false, closeQueued := true } else s

/-- Run a sequence of lifecycle events from the unmounted state. -/
def runTrace (evs : List PEvent) : ProviderState :=
  evs.foldl pstep initialProviderState

/-- C1 claim evaluated on the code: teardown does cancel the pending timer,
but the close event fired by its own ws.close() still runs the attached
onclose, which schedules a fresh reconnect timer; when that timer fires,
connect is called again, after teardown. -/
theorem c1_reconnect_after_teardown :
    (runTrace [PEvent.mount, PEvent.teardown]).tornDown = true ∧
    (runTrace [PEvent.mount, PEvent.teardown]).connectCalls = 1 ∧
    (runTrace [PEvent.mount, PEvent.teardown]).reconnectTimer = none ∧
    (runTrace [PEvent.mount, PEvent.teardown, PEvent.closeEvt]).reconnectTimer
      = some reconnectDelayMs ∧
    (runTrace [PEvent.mount, PEvent.teardown, PEvent.closeEvt,
        PEvent.timerFire]).connectCalls = 2 := by
  decide

/-- A subscribed handler: its identity and whether invoking it on a given
payload throws. -/
structure Handler where
  id : Nat
  throws : Scalar → Bool

/-- Set.prototype.forEach over the registered handlers with the semantics of
the source try block: handlers run in order and a thrown exception propagates
out of the forEach, so later handlers are not reached. The result is the list
of handler ids actually invoked, each with the same payload. -/
def runHandlers (payload : Scalar) : List Handler → List Nat
  | [] => []
  | h :: t => if h.throws payload then [h.id] else h.id :: runHandlers payload t

/-- ws.onmessage after a successful parse: the forEach runs inside the
try/catch and the catch merely swallows the exception, leaving the
invocation log as the forEach produced it. -/
def dispatchMessage (handlers : List Handler) (payload : Scalar) : List Nat :=
  runHandlers payload handlers

/-- C2 claim evaluated on the code: with two handlers registered for one
event type and the first throwing, the second is never invoked for that
dispatch — the catch meant for parse errors aborts the forEach. When no
handler throws, all handlers run in order. -/
theorem c2_handler_throw_aborts_dispatch :
    dispatchMessage [⟨1, fun _ => true⟩, ⟨2, fun _ => false⟩] (Scalar.num 0)
      = [1] ∧
    (2 : Nat) ∉ dispatchMessage [⟨1, fun _ => true⟩, ⟨2, fun _ => false⟩]
      (Scalar.num 0) ∧
    dispatchMessage [⟨1, fun _ => false⟩, ⟨2, fun _ => false⟩] (Scalar.num 0)
      = [1, 2] := by
  refine ⟨rfl, ?_, rfl⟩
  decide

/-- The effect of the unsubscribe closures a handler calls while it runs:
each unsubscribe deletes its handler from the registered set. -/
def applyUnsubs (reg rem : List Nat) : List Nat :=
  reg.filter (fun x => decide (x ∉ rem))

/-- Set.prototype.forEach over the handler set for one event type, with
deletions taking effect immediately: the iteration follows insertion order,
a handler runs only if it is still registered when reached, and running
handler h removes the handlers h unsubscribes. Returns the ids invoked in
this dispatch and the registry afterwards. -/
def runDispatch (effects : Nat → List Nat) :
    List Nat → List Nat → List Nat × List Nat
  | [], reg => ([], reg)
  | a :: rest, reg =>
    if a ∈ reg then
      let res := runDispatch effects rest (applyUnsubs reg (effects a))
      (a :: res.1, res.2)
    else runDispatch effects rest reg

lemma mem_applyUnsubs_subset {reg rem : List Nat} {j : Nat}
    (h : j ∈ applyUnsubs reg rem) : j ∈ reg := by
  simp only [applyUnsubs, List.mem_filter] at h
  exact h.1

lemma not_mem_applyUnsubs_of_rem {reg rem : List Nat} {j : Nat} (h : j ∈ rem) :
    j ∉ applyUnsubs reg rem := by
  simp only [applyUnsubs, List.mem_filter, decide_eq_true_eq, not_and]
  exact fun _ hc => hc h

lemma runDispatch_not_mem (e : Nat → List Nat) (j : Nat) :
    ∀ (order reg : List Nat), j ∉ reg →
      j ∉ (runDispatch e order reg).1 ∧ j ∉ (runDispatch e order reg).2 := by
  intro order
  induction order with
  | nil =>
    intro reg h
    exact ⟨by simp [runDispatch], by simpa [runDispatch] using h⟩
  | cons a rest ih =>
    intro reg hj
    by_cases hm : a ∈ reg
    · have hne : a ≠ j := fun he => hj (he ▸ hm)
      have hj' : j ∉ applyUnsubs reg (e a) :=
        fun hc => hj (mem_applyUnsubs_subset hc)
      have hrec := ih (applyUnsubs reg (e a)) hj'
      simp only [runDispatch, if_pos hm]
      refine ⟨?_, hrec.2⟩
      simp only [List.mem_cons, not_or]
      exact ⟨fun he => hne he.symm, hrec.1⟩
    · simp only [runDispatch, if_neg hm]
      exact ih reg hj

lemma c9_aux (e : Nat → List Nat) (i j : Nat) (hji : j ≠ i) :
    ∀ (pre post reg : List Nat), j ∈ e i → j ∉ pre →
      i ∈ (runDispatch e (pre ++ i :: post) reg).1 →
      j ∉ (runDispatch e (pre ++ i :: post) reg).1 ∧
      j ∉ (runDispatch e (pre ++ i :: post) reg).2 := by
  intro pre
  induction pre with
  | nil =>
    intro post reg hj _ hi
    simp only [List.nil_append] at hi ⊢
    by_cases hm : i ∈ reg
    · simp only [runDispatch, if_pos hm] at hi ⊢
      have hj' : j ∉ applyUnsubs reg (e i) := not_mem_applyUnsubs_of_rem hj
      have hrec := runDispatch_not_mem e j post (applyUnsubs reg (e i)) hj'
      refine ⟨?_, hrec.2⟩
      simp only [List.mem_cons, not_or]
      exact ⟨hji, hrec.1⟩
    · simp only [runDispatch, if_neg hm] at hi
      exact absurd hi (runDispatch_not_mem e i post reg hm).1
  | cons a pre ih =>
    intro post reg hj hjpre hi
    have hja : j ≠ a := fun he => hjpre (by simp [he])
    have hjpre' : j ∉ pre := fun hc => hjpre (List.mem_cons_of_mem _ hc)
    simp only [List.cons_append] at hi ⊢
    by_cases hm : a ∈ reg
    · simp only [runDispatch, if_pos hm] at hi ⊢
      by_cases hia : i = a
      · subst hia
        have hj' : j ∉ applyUnsubs reg (e i) := not_mem_applyUnsubs_of_rem hj
        have hrec := runDispatch_not_mem e j (pre ++ i :: post)
          (applyUnsubs reg (e i)) hj'
        refine ⟨?_, hrec.2⟩
        simp only [List.mem_cons, not_or]
        exact ⟨hji, hrec.1⟩
      · have hi' : i ∈ (runDispatch e (pre ++ i :: post) (applyUnsubs reg (e a))).1 := by
          rcases List.mem_cons.mp hi with he | hmem
          · exact absurd he hia
          · exact hmem
        have hrec := ih post (applyUnsubs reg (e a)) hj hjpre' hi'
        refine ⟨?_, hrec.2⟩
        simp only [List.mem_cons, not_or]
        exact ⟨hja, hrec.1⟩
    · simp only [runDispatch, if_neg hm] at hi ⊢
      exact ih post reg hj hjpre' hi

/-- C9: once a handler j has been unsubscribed by handler i during a
dispatch in which i runs before j is reached, j is not invoked in that same
dispatch, and since it is no longer registered afterwards, it is not invoked
in any later dispatch for that event type either. -/
theorem c9_unsubscribe_stops_dispatch (e : Nat → List Nat)
    (pre post reg : List Nat) (i j : Nat)
    (hj : j ∈ e i) (hjpre : j ∉ pre) (hji : j ≠ i)
    (hi : i ∈ (runDispatch e (pre ++ i :: post) reg).1) :
    j ∉ (runDispatch e (pre ++ i :: post) reg).1 ∧
    ∀ order2 : List Nat,
      j ∉ (runDispatch e order2 ((runDispatch e (pre ++ i :: post) reg).2)).1 := by
  obtain ⟨h1, h2⟩ := c9_aux e i j hji pre post reg hj hjpre hi
  exact ⟨h1, fun order2 => (runDispatch_not_mem e j order2 _ h2).1⟩

/-- A concrete effect table for the C9 witness: handler 1 unsubscribes
handler 2 while running. -/
def exEffects : Nat → List Nat := fun a => if a = 1 then [2] else []

/-- Witness for C9: with handlers 1 and 2 registered in that order and
handler 1 unsubscribing handler 2, handler 2 does not run in that dispatch. -/
theorem c9_unsubscribe_stops_dispatch_witness :
    (2 : Nat) ∉ (runDispatch exEffects ([] ++ 1 :: [2]) [1, 2]).1 :=
  (c9_unsubscribe_stops_dispatch exEffects [] [2] [1, 2] 1 2
    (by decide) (by decide) (by decide) (by decide)).1

end AiCrypto
